import Mathlib

/-!
Verification of the loop-invariant code motion (LICM) core of
`mlir/lib/Transforms/LoopInvariantCodeMotion.cpp`.

The embedding models the IR fragments the pass touches:

* `Value` — an SSA value, carrying the id of its defining operation
  (`none` for block arguments) and its own identity `vid`.
* `Op` / `Region` / `Block` — an operation with its operands, its
  side-effect information and its nested regions; a region is a list of
  blocks; a block is its list of non-terminator operations together with
  its terminator operation (in the source a block stores all operations
  with the terminator last, and the pass always iterates
  `block.without_terminator()`, so the split representation is the one
  the pass observes).
* `LoopLike` — the loop-like interface consumed by the pass: the loop
  body (list of blocks), `isDefinedOutsideOfLoop`, and the state-passing
  rendering of `moveOutOfLoop`, which receives the current body and the
  ordered list of operations and returns success together with the
  resulting body.

Operation identity (pointer identity in the source) is modelled by the
`opid` field; the `willBeMovedSet` of operation pointers becomes the list
of ids of the operations collected so far.
-/

set_option autoImplicit false

/-- An SSA value: `definingOp` is the id of the operation producing it
(`none` for block arguments, where `value.getDefiningOp()` is null), and
`vid` is the value's own identity. -/
structure Value where
  definingOp : Option Nat
  vid : Nat

/-- An operation: id, operands, side-effect data and nested regions.
`memoryEffects = some b` models a successful `dyn_cast` to
`MemoryEffectOpInterface` whose `hasNoEffect()` returns `b`;
`noSideEffect` models `op->hasNoSideEffect()`; `recursiveSideEffects`
models `op->hasTrait<OpTrait::HasRecursiveSideEffects>()`.  A region is
an ordered list of blocks; a block is its list of non-terminator
operations in program order paired with its terminator operation (the
list component is what `block.without_terminator()` iterates). -/
inductive Op where
  | mk (opid : Nat) (operands : List Value) (memoryEffects : Option Bool)
      (noSideEffect : Bool) (recursiveSideEffects : Bool)
      (regions : List (List (List Op × Op))) : Op

/-- A block: non-terminator operations in program order, and the
terminator operation. -/
abbrev Block : Type := List Op × Op

/-- A region: an ordered list of blocks. -/
abbrev Region : Type := List Block

def Op.opid : Op → Nat
  | .mk i _ _ _ _ _ => i

def Op.operands : Op → List Value
  | .mk _ o _ _ _ _ => o

def Op.memoryEffects : Op → Option Bool
  | .mk _ _ m _ _ _ => m

def Op.noSideEffect : Op → Bool
  | .mk _ _ _ n _ _ => n

def Op.recursiveSideEffects : Op → Bool
  | .mk _ _ _ _ r _ => r

def Op.regions : Op → List Region
  | .mk _ _ _ _ _ rs => rs

def Block.mk (ops : List Op) (term : Op) : Block := (ops, term)

def Block.ops (b : Block) : List Op := b.1

def Block.term (b : Block) : Op := b.2

/-- The loop-like interface (`LoopLikeOpInterface`) the pass consumes:
the loop body, the `isDefinedOutsideOfLoop` test, and `moveOutOfLoop`
rendered in state-passing style (current body and ordered operation list
in, success flag and resulting body out). -/
structure LoopLike where
  loopBody : List Block
  isDefinedOutsideOfLoop : Value → Bool
  moveOutOfLoop : List Block → List Op → Bool × List Block

mutual

/-- `canBeHoisted(op, definedOutside)` from the source: all operands must
satisfy `definedOutside`; the memory-effect interface, when present,
must report no effect, otherwise one of the `hasNoSideEffect` /
`HasRecursiveSideEffects` markers must hold; a recursively
side-effecting operation additionally needs every non-terminator
operation of every block of every region to pass the same check. -/
def canBeHoisted (op : Op) (definedOutside : Value → Bool) : Bool :=
  match op with
  | .mk _ operands memoryEffects noSideEffect recursiveSideEffects regions =>
    if !(operands.all definedOutside) then false
    else if (match memoryEffects with
             | some hasNoEffect => !hasNoEffect
             | none => !noSideEffect && !recursiveSideEffects) then false
    else if !recursiveSideEffects then true
    else canBeHoistedRegions regions definedOutside

/-- The region loop of `canBeHoisted`. -/
def canBeHoistedRegions (rs : List Region) (definedOutside : Value → Bool) : Bool :=
  match rs with
  | [] => true
  | blocks :: rest =>
      canBeHoistedBlocks blocks definedOutside && canBeHoistedRegions rest definedOutside

/-- The block loop of `canBeHoisted`. -/
def canBeHoistedBlocks (bs : List Block) (definedOutside : Value → Bool) : Bool :=
  match bs with
  | [] => true
  | (ops, _) :: rest =>
      canBeHoistedOps ops definedOutside && canBeHoistedBlocks rest definedOutside

/-- The `block.without_terminator()` loop of `canBeHoisted`. -/
def canBeHoistedOps (ops : List Op) (definedOutside : Value → Bool) : Bool :=
  match ops with
  | [] => true
  | o :: rest => canBeHoisted o definedOutside && canBeHoistedOps rest definedOutside

end

/-- The `isDefinedOutsideOfBody` lambda of `moveLoopInvariantCode`:
`(definingOp && willBeMovedSet.count(definingOp)) ||
looplike.isDefinedOutsideOfLoop(value)`, with the pointer set
`willBeMovedSet` modelled as the list of collected operation ids. -/
def isDefinedOutsideOfBody (looplike : LoopLike) (willBeMovedSet : List Nat)
    (value : Value) : Bool :=
  (match value.definingOp with
   | some definingOp => willBeMovedSet.contains definingOp
   | none => false) || looplike.isDefinedOutsideOfLoop value

/-- The scan loop over one block's non-terminator operations: each
operation passing `canBeHoisted` (under the predicate formed from the
operations collected so far) is appended to the collection.  The
source's pair of containers (`opsToMove` vector, `willBeMovedSet`
pointer set) hold the same operations; here the set is the id image of
the accumulated vector. -/
def scanOps (looplike : LoopLike) (acc : List Op) : List Op → List Op
  | [] => acc
  | op :: rest =>
      if canBeHoisted op (isDefinedOutsideOfBody looplike (acc.map Op.opid)) then
        scanOps looplike (acc ++ [op]) rest
      else
        scanOps looplike acc rest

/-- The scan loop over the blocks of the loop body. -/
def scanBlocks (looplike : LoopLike) (acc : List Op) : List Block → List Op
  | [] => acc
  | blk :: rest => scanBlocks looplike (scanOps looplike acc blk.ops) rest

/-- The ordered `opsToMove` list computed by `moveLoopInvariantCode`
just before it invokes `moveOutOfLoop`. -/
def opsToMoveOf (looplike : LoopLike) : List Op :=
  scanBlocks looplike [] looplike.loopBody

/-- `moveLoopInvariantCode`: scan the loop body, then hand the collected
list to `looplike.moveOutOfLoop` exactly once; the returned flag is the
`LogicalResult` (`true` = success) and the returned body is whatever the
move primitive produced. -/
def moveLoopInvariantCode (looplike : LoopLike) : Bool × List Block :=
  looplike.moveOutOfLoop looplike.loopBody (opsToMoveOf looplike)

/-- `runOnOperation`: the host walk hands every loop-like operation to
`moveLoopInvariantCode`; the pass succeeds iff no invocation failed
(each failure triggers `signalPassFailure`). -/
def runOnOperation (loops : List LoopLike) : Bool :=
  loops.all (fun looplike => (moveLoopInvariantCode looplike).1)

/-- The concatenation of the non-terminator operations of a list of
blocks, in program order: exactly the operations the scan visits. -/
def bodyOps : List Block → List Op
  | [] => []
  | blk :: rest => blk.ops ++ bodyOps rest

mutual

/-- All operations strictly nested inside an operation's regions, at any
depth, terminators included. -/
def nestedOps : Op → List Op
  | .mk _ _ _ _ _ regions => nestedOpsRegions regions

/-- `nestedOps` over a list of regions. -/
def nestedOpsRegions : List Region → List Op
  | [] => []
  | blocks :: rest => nestedOpsBlocks blocks ++ nestedOpsRegions rest

/-- `nestedOps` over a list of blocks (the block's operations, their
nested operations, the terminator and its nested operations). -/
def nestedOpsBlocks : List Block → List Op
  | [] => []
  | (ops, term) :: rest =>
      nestedOpsList ops ++ (term :: nestedOps term) ++ nestedOpsBlocks rest

/-- `nestedOps` over a list of operations, each listed together with its
own nested operations. -/
def nestedOpsList : List Op → List Op
  | [] => []
  | o :: rest => o :: nestedOps o ++ nestedOpsList rest

end

mutual

/-- All blocks appearing in an operation's regions, at any depth. -/
def nestedBlocks : Op → List Block
  | .mk _ _ _ _ _ regions => nestedBlocksRegions regions

/-- `nestedBlocks` over a list of regions. -/
def nestedBlocksRegions : List Region → List Block
  | [] => []
  | blocks :: rest => nestedBlocksOfBlocks blocks ++ nestedBlocksRegions rest

/-- `nestedBlocks` over a list of blocks: the blocks themselves and the
blocks nested in their operations and terminators. -/
def nestedBlocksOfBlocks : List Block → List Block
  | [] => []
  | (ops, term) :: rest =>
      (ops, term) ::
        (nestedBlocksOfOps ops ++ nestedBlocks term ++ nestedBlocksOfBlocks rest)

/-- `nestedBlocks` over a list of operations. -/
def nestedBlocksOfOps : List Op → List Block
  | [] => []
  | o :: rest => nestedBlocks o ++ nestedBlocksOfOps rest

end

mutual

/-- Every value the hoistability analyzer may apply its availability
predicate to when examining an operation: the operation's own operands
and, recursively, the operands of every non-terminator operation nested
in its regions (terminator operands are never consulted, mirroring
`block.without_terminator()`). -/
def usedValues : Op → List Value
  | .mk _ operands _ _ _ regions => operands ++ usedValuesRegions regions

/-- `usedValues` over a list of regions. -/
def usedValuesRegions : List Region → List Value
  | [] => []
  | blocks :: rest => usedValuesBlocks blocks ++ usedValuesRegions rest

/-- `usedValues` over a list of blocks. -/
def usedValuesBlocks : List Block → List Value
  | [] => []
  | (ops, _) :: rest => usedValuesOps ops ++ usedValuesBlocks rest

/-- `usedValues` over a list of operations. -/
def usedValuesOps : List Op → List Value
  | [] => []
  | o :: rest => usedValues o ++ usedValuesOps rest

end

/-- The side-effect test rejection condition of `canBeHoisted`: the
memory-effect classification reports present effects, or no
classification exists and neither trait marker holds (status unknown). -/
def sideEffectUnknownOrPresent (op : Op) : Bool :=
  match op.memoryEffects with
  | some hasNoEffect => !hasNoEffect
  | none => !op.noSideEffect && !op.recursiveSideEffects

/-- Modelled from the spec: the physical `moveOutOfLoop` primitive is not
part of this translation unit (it lives with each loop-like operation
behind `LoopLikeOpInterface`); per the spec it relocates exactly the
listed operations to before the loop, so the loop body afterwards is the
original body with the moved operations removed and everything else, the
terminators included, left in program order. -/
def moveOutOfLoopSpec (body : List Block) (opsToMove : List Op) : List Block :=
  body.map (fun blk =>
    Block.mk (blk.ops.filter (fun o => !((opsToMove.map Op.opid).contains o.opid))) blk.term)

/-- Modelled from the spec: the loop as it stands after a successful
first run.  The body is what the move primitive (spec-modelled above)
left behind, and a value produced by a hoisted operation now sits
immediately before the loop, so `isDefinedOutsideOfLoop` reports it as
outside. -/
def afterFirstRun (looplike : LoopLike) : LoopLike :=
  { loopBody := moveOutOfLoopSpec looplike.loopBody (opsToMoveOf looplike)
    isDefinedOutsideOfLoop := fun v =>
      looplike.isDefinedOutsideOfLoop v ||
        (match v.definingOp with
         | some d => ((opsToMoveOf looplike).map Op.opid).contains d
         | none => false)
    moveOutOfLoop := looplike.moveOutOfLoop }

/-- Control-flow-respecting def-before-use, in scan order: no value
consumed by (or anywhere inside) a scanned operation is defined by that
operation itself or by a later scanned operation of the loop body. -/
def defBeforeUseList : List Op → Bool
  | [] => true
  | op :: rest =>
      (usedValues op).all (fun v =>
        match v.definingOp with
        | some d => !(((op :: rest).map Op.opid).contains d)
        | none => true) && defBeforeUseList rest

/-- `defBeforeUseList` over the non-terminator operations of the loop
body, in the order the scan visits them. -/
def defBeforeUse (looplike : LoopLike) : Bool :=
  defBeforeUseList (bodyOps looplike.loopBody)

/-! ### Concrete operations and loops, used by the witnesses -/

/-- A value defined before the loop (block argument with id 100). -/
def vOutside : Value := ⟨none, 100⟩

/-- The result of operation `1`. -/
def vOfOp1 : Value := ⟨some 1, 101⟩

/-- A value defined by operation `21` inside a nested region. -/
def vInner : Value := ⟨some 21, 200⟩

/-- `x = constant 5`: no operands, no side effects. -/
def op1 : Op := .mk 1 [] none true false []

/-- `y = add x, x`: consumes the result of `op1`, no side effects. -/
def op2 : Op := .mk 2 [vOfOp1] none true false []

/-- `z = load`: memory-effect interface present, reports an effect. -/
def op3 : Op := .mk 3 [vOutside] (some false) false false []

/-- Terminator of the example block. -/
def term9 : Op := .mk 9 [] none true false []

/-- The example loop body block: `op1; op2; op3` then the terminator. -/
def exBlock : Block := Block.mk [op1, op2, op3] term9

/-- Example loop: one block, only `vOutside` is defined outside, and the
move primitive succeeds, behaving as the spec-modelled relocation. -/
def exLoop : LoopLike :=
  ⟨[exBlock], fun v => v.vid == 100,
   fun body opsToMove => (true, moveOutOfLoopSpec body opsToMove)⟩

/-- An operation nested inside `opRec`, consuming a value defined inside
the same region. -/
def innerOp : Op := .mk 20 [vInner] none true false []

/-- Terminator of the nested block. -/
def innerTerm : Op := .mk 22 [] none true false []

/-- The nested block holding `innerOp`. -/
def innerBlock : Block := Block.mk [innerOp] innerTerm

/-- The nested region holding `innerBlock`. -/
def innerRegion : Region := [innerBlock]

/-- A recursively side-effecting operation whose region contains
`innerOp`. -/
def opRec : Op := .mk 21 [] none false true [innerRegion]

/-- Terminator of the second example block. -/
def term8 : Op := .mk 8 [] none true false []

/-- Example loop whose body holds the nested-region operation `opRec`. -/
def exLoop2 : LoopLike :=
  ⟨[Block.mk [opRec] term8], fun v => v.vid == 100,
   fun body opsToMove => (true, moveOutOfLoopSpec body opsToMove)⟩

/-- The trivial availability predicate accepting every value. -/
def allOutside : Value → Bool := fun _ => true

/-- The trivial availability predicate rejecting every value. -/
def noneOutside : Value → Bool := fun _ => false

/-- Each collected operation passed `canBeHoisted` under the predicate
built from exactly the operations collected before it. -/
def SelectedConsistent (looplike : LoopLike) (acc : List Op) : Prop :=
  ∀ pre op post, acc = pre ++ op :: post →
    canBeHoisted op (isDefinedOutsideOfBody looplike (pre.map Op.opid)) = true

/-! ### Basic facts about the scan -/

theorem scanOps_append (looplike : LoopLike) (l1 l2 : List Op) :
    ∀ acc : List Op, scanOps looplike acc (l1 ++ l2) = scanOps looplike (scanOps looplike acc l1) l2 := by
  induction l1 with
  | nil => intro acc; rfl
  | cons o rest ih =>
      intro acc
      simp only [List.cons_append, scanOps]
      split <;> exact ih _

theorem scanBlocks_eq_scanOps (looplike : LoopLike) (bs : List Block) :
    ∀ acc : List Op, scanBlocks looplike acc bs = scanOps looplike acc (bodyOps bs) := by
  induction bs with
  | nil => intro acc; rfl
  | cons blk rest ih =>
      intro acc
      simp only [scanBlocks, bodyOps, scanOps_append]
      exact ih _

theorem opsToMoveOf_eq (looplike : LoopLike) :
    opsToMoveOf looplike = scanOps looplike [] (bodyOps looplike.loopBody) :=
  scanBlocks_eq_scanOps looplike looplike.loopBody []

/-- The scan only ever appends: the result extends the accumulator by a
sublist of the scanned operations. -/
theorem scanOps_shape (looplike : LoopLike) (l : List Op) :
    ∀ acc : List Op, ∃ sel, scanOps looplike acc l = acc ++ sel ∧ List.Sublist sel l := by
  induction l with
  | nil => intro acc; exact ⟨[], by simp [scanOps], List.nil_sublist _⟩
  | cons o rest ih =>
      intro acc
      simp only [scanOps]
      split
      · obtain ⟨sel, hEq, hSub⟩ := ih (acc ++ [o])
        exact ⟨o :: sel, by simpa using hEq, List.Sublist.cons₂ o hSub⟩
      · obtain ⟨sel, hEq, hSub⟩ := ih acc
        exact ⟨sel, hEq, List.Sublist.cons o hSub⟩

/-- Every operation the scan collects (beyond the incoming accumulator)
passed `canBeHoisted` under some `willBeMovedSet`. -/
theorem mem_scanOps (looplike : LoopLike) (l : List Op) :
    ∀ acc : List Op, ∀ x ∈ scanOps looplike acc l,
      x ∈ acc ∨ ∃ w, canBeHoisted x (isDefinedOutsideOfBody looplike w) = true := by
  induction l with
  | nil => intro acc x hx; exact Or.inl hx
  | cons o rest ih =>
      intro acc x hx
      simp only [scanOps] at hx
      split at hx
      · rcases ih _ x hx with h | h
        · rcases List.mem_append.mp h with h | h
          · exact Or.inl h
          · rcases List.mem_singleton.mp h with rfl
            exact Or.inr ⟨acc.map Op.opid, by assumption⟩
        · exact Or.inr h
      · exact ih _ x hx

/-- The operations selected for hoisting form a sublist (hence, in
particular, a subset, in the original order) of the non-terminator
operations of the immediate loop body. -/
theorem opsToMoveOf_sublist (looplike : LoopLike) :
    List.Sublist (opsToMoveOf looplike) (bodyOps looplike.loopBody) := by
  obtain ⟨sel, hEq, hSub⟩ := scanOps_shape looplike (bodyOps looplike.loopBody) []
  rw [opsToMoveOf_eq, hEq]
  simpa using hSub

theorem mem_bodyOps_of_mem_opsToMoveOf (looplike : LoopLike) {x : Op}
    (hx : x ∈ opsToMoveOf looplike) : x ∈ bodyOps looplike.loopBody :=
  (opsToMoveOf_sublist looplike).subset hx

/-- An operation whose id does not occur among the ids of the scanned
operations is never selected. -/
theorem not_mem_opsToMoveOf_of_fresh_id (looplike : LoopLike) {x : Op}
    (hid : x.opid ∉ (bodyOps looplike.loopBody).map Op.opid) :
    x ∉ opsToMoveOf looplike := by
  intro hx
  exact hid (List.mem_map_of_mem Op.opid (mem_bodyOps_of_mem_opsToMoveOf looplike hx))

/-- Splitting `bodyOps` at a member block. -/
theorem bodyOps_decomp (bs : List Block) {blk : Block} (hblk : blk ∈ bs) :
    ∃ X Y, bodyOps bs = X ++ blk.ops ++ Y := by
  induction bs with
  | nil => cases hblk
  | cons b rest ih =>
      rcases List.mem_cons.mp hblk with rfl | h
      · exact ⟨[], bodyOps rest, by simp [bodyOps]⟩
      · obtain ⟨X, Y, hXY⟩ := ih h
        exact ⟨b.ops ++ X, Y, by simp [bodyOps, hXY]⟩

/-! ### The per-element scan invariant -/

theorem append_singleton_decomp {α : Type} {acc : List α} {o : α}
    {pre post : List α} {op : α} (h : acc ++ [o] = pre ++ op :: post) :
    (pre = acc ∧ op = o ∧ post = []) ∨
      ∃ tail, post = tail ++ [o] ∧ acc = pre ++ op :: tail := by
  rcases List.eq_nil_or_concat post with rfl | ⟨tail, x, rfl⟩
  · left
    have h2 := List.append_inj' h (by simp)
    exact ⟨h2.1.symm, (by simpa using h2.2.symm), rfl⟩
  · right
    rw [List.concat_eq_append] at h
    have h2 : acc ++ [o] = (pre ++ op :: tail) ++ [x] := by simpa using h
    have h3 := List.append_inj' h2 (by simp)
    rcases h3 with ⟨h4, h5⟩
    simp only [List.cons.injEq] at h5
    exact ⟨tail, by simp [h5.1], h4⟩

theorem scanOps_selectedConsistent (looplike : LoopLike) (l : List Op) :
    ∀ acc : List Op, SelectedConsistent looplike acc →
      SelectedConsistent looplike (scanOps looplike acc l) := by
  induction l with
  | nil => intro acc h; exact h
  | cons o rest ih =>
      intro acc hacc
      simp only [scanOps]
      split
      · apply ih
        intro pre op post hdecomp
        rcases append_singleton_decomp hdecomp with ⟨hp, ho, hpost⟩ | ⟨tail, hpost, hacc2⟩
        · subst hp; subst ho; assumption
        · exact hacc _ _ _ hacc2
      · exact ih acc hacc

theorem opsToMoveOf_selectedConsistent (looplike : LoopLike) :
    SelectedConsistent looplike (opsToMoveOf looplike) := by
  rw [opsToMoveOf_eq]
  apply scanOps_selectedConsistent
  intro pre op post h
  simp at h

/-! ### Splitting `canBeHoisted` -/

theorem canBeHoisted_operands {op : Op} {d : Value → Bool}
    (h : canBeHoisted op d = true) : op.operands.all d = true := by
  cases op with
  | mk i operands mem nse rse regions =>
      simp only [canBeHoisted, Op.operands] at h ⊢
      by_cases hall : operands.all d = true
      · exact hall
      · simp [hall] at h

theorem canBeHoistedOps_eq_all (ops : List Op) (d : Value → Bool) :
    canBeHoistedOps ops d = ops.all (fun o => canBeHoisted o d) := by
  induction ops with
  | nil => rfl
  | cons o rest ih => simp [canBeHoistedOps, ih]

theorem canBeHoistedBlocks_eq_all (bs : List Block) (d : Value → Bool) :
    canBeHoistedBlocks bs d = bs.all (fun b => canBeHoistedOps b.ops d) := by
  induction bs with
  | nil => rfl
  | cons b rest ih => cases b; simp [canBeHoistedBlocks, Block.ops, ih]

theorem canBeHoistedRegions_eq_all (rs : List Region) (d : Value → Bool) :
    canBeHoistedRegions rs d = rs.all (fun r => canBeHoistedBlocks r d) := by
  induction rs with
  | nil => rfl
  | cons r rest ih => simp [canBeHoistedRegions, ih]

theorem all_false_of_mem {α : Type} {l : List α} {x : α} {p : α → Bool}
    (hx : x ∈ l) (hp : p x = false) : l.all p = false := by
  induction l with
  | nil => cases hx
  | cons a rest ih =>
      rcases List.mem_cons.mp hx with rfl | h
      · rw [List.all_cons, hp, Bool.false_and]
      · rw [List.all_cons, ih h, Bool.and_false]

/-! ### Claim theorems (first group) -/

/-- C1: every operation selected for hoisting was approved by
`canBeHoisted`: each of its operands is defined by an operation selected
earlier in the same pass or is reported outside the loop by the loop
interface, and the operation passes the side-effect check (directly or
through the recursive region check). -/
theorem licm_safety (looplike : LoopLike) (pre : List Op) (op : Op) (post : List Op)
    (h : opsToMoveOf looplike = pre ++ op :: post) :
    (∀ v ∈ op.operands,
        (∃ d, v.definingOp = some d ∧ d ∈ pre.map Op.opid) ∨
          looplike.isDefinedOutsideOfLoop v = true)
    ∧ canBeHoisted op (isDefinedOutsideOfBody looplike (pre.map Op.opid)) = true := by
  have hc := opsToMoveOf_selectedConsistent looplike pre op post h
  refine ⟨?_, hc⟩
  have hall := canBeHoisted_operands hc
  intro v hv
  have hval := List.all_eq_true.mp hall v hv
  simp only [isDefinedOutsideOfBody, Bool.or_eq_true] at hval
  rcases hval with hdef | hout
  · cases hdv : v.definingOp with
    | none => rw [hdv] at hdef; cases hdef
    | some d =>
        rw [hdv] at hdef
        exact Or.inl ⟨d, rfl, by simpa using hdef⟩
  · exact Or.inr hout

/-- Witness: in `exLoop`, `op2` is selected second, with `op1` selected
before it supplying its operand. -/
theorem licm_safety_witness :
    canBeHoisted op2 (isDefinedOutsideOfBody exLoop ([op1].map Op.opid)) = true :=
  (licm_safety exLoop [op1] op2 [] rfl).2

/-- C2: an operation whose side-effect status is unknown (no
classification, no effect-free marker, no recursive marker) or whose
classification reports present effects fails `canBeHoisted` under every
availability predicate and is never selected by any loop's scan. -/
theorem licm_side_effect_conservatism (op : Op)
    (h : sideEffectUnknownOrPresent op = true) :
    (∀ d : Value → Bool, canBeHoisted op d = false)
    ∧ ∀ looplike : LoopLike, op ∉ opsToMoveOf looplike := by
  have hfalse : ∀ d : Value → Bool, canBeHoisted op d = false := by
    intro d
    cases op with
    | mk i operands mem nse rse regions =>
        simp only [sideEffectUnknownOrPresent, Op.memoryEffects, Op.noSideEffect,
          Op.recursiveSideEffects] at h
        simp [canBeHoisted, h]
  refine ⟨hfalse, ?_⟩
  intro looplike hmem
  rw [opsToMoveOf_eq] at hmem
  rcases mem_scanOps looplike (bodyOps looplike.loopBody) [] op hmem with h0 | ⟨w, hw⟩
  · cases h0
  · rw [hfalse _] at hw
    cases hw

/-- Witness: `op3` carries a memory-effect classification reporting an
effect; it fails the analyzer and is not selected in `exLoop`. -/
theorem licm_side_effect_conservatism_witness :
    canBeHoisted op3 allOutside = false ∧ op3 ∉ opsToMoveOf exLoop :=
  ⟨(licm_side_effect_conservatism op3 rfl).1 allOutside,
   (licm_side_effect_conservatism op3 rfl).2 exLoop⟩

/-- C5: when a memory-effect classification is present it alone decides
the side-effect test (the `noSideEffect` marker does not appear in the
result), acceptance requiring exactly "no effects"; without a
classification the two trait markers decide the test. -/
theorem hoist_chain_some : ∀ a b r x : Bool,
    (if !a then false else if !b then false else if !r then true else x)
      = (a && b && (!r || x)) := by decide

theorem hoist_chain_none : ∀ a n r x : Bool,
    (if !a then false else if !n && !r then false else if !r then true else x)
      = (a && (n || r) && (!r || x)) := by decide

theorem licm_memory_effects_precedence (op : Op) (d : Value → Bool) :
    (∀ b, op.memoryEffects = some b →
        canBeHoisted op d =
          (op.operands.all d && b &&
            (!op.recursiveSideEffects || canBeHoistedRegions op.regions d)))
    ∧ (op.memoryEffects = none →
        canBeHoisted op d =
          (op.operands.all d && (op.noSideEffect || op.recursiveSideEffects) &&
            (!op.recursiveSideEffects || canBeHoistedRegions op.regions d))) := by
  cases op with
  | mk i operands mem nse rse regions =>
      constructor
      · intro b hb
        simp only [Op.memoryEffects] at hb
        subst hb
        exact hoist_chain_some (operands.all d) b rse (canBeHoistedRegions regions d)
      · intro hb
        simp only [Op.memoryEffects] at hb
        subst hb
        exact hoist_chain_none (operands.all d) nse rse (canBeHoistedRegions regions d)

/-- Witness: `op3` exposes the classification `some false`; its analyzer
result is decided by that classification alone. -/
theorem licm_memory_effects_precedence_witness :
    canBeHoisted op3 allOutside =
      (op3.operands.all allOutside && false &&
        (!op3.recursiveSideEffects || canBeHoistedRegions op3.regions allOutside)) :=
  (licm_memory_effects_precedence op3 allOutside).1 false rfl

/-- C6: the scan selects only operations of the immediate loop-body
blocks, and an operation nested inside a body operation's regions (in
particular inside a nested loop's body), being a distinct operation from
every immediate body operation, is never selected. -/
theorem licm_no_nested_selection (looplike : LoopLike) :
    (∀ x ∈ opsToMoveOf looplike, x ∈ bodyOps looplike.loopBody)
    ∧ (∀ y x, y ∈ bodyOps looplike.loopBody → x ∈ nestedOps y →
        x.opid ∉ (bodyOps looplike.loopBody).map Op.opid →
        x ∉ opsToMoveOf looplike) :=
  ⟨fun _ hx => mem_bodyOps_of_mem_opsToMoveOf looplike hx,
   fun _ _ _ _ hid => not_mem_opsToMoveOf_of_fresh_id looplike hid⟩

/-- Witness: `innerOp` sits inside the nested region of `opRec` and is
not selected when `exLoop2` is processed. -/
theorem licm_no_nested_selection_witness :
    innerOp ∉ opsToMoveOf exLoop2 :=
  (licm_no_nested_selection exLoop2).2 opRec innerOp
    (List.mem_append_left _ (List.mem_cons_self opRec []))
    (List.mem_cons_self innerOp [innerTerm])
    (by decide)

/-- C7: `moveLoopInvariantCode` fails exactly when the move primitive
reports failure, and the body it leaves behind is exactly the body the
primitive produced from the original, untouched loop body. -/
theorem licm_failure_propagation (looplike : LoopLike) :
    ((moveLoopInvariantCode looplike).1 = false ↔
      (looplike.moveOutOfLoop looplike.loopBody (opsToMoveOf looplike)).1 = false)
    ∧ (moveLoopInvariantCode looplike).2 =
        (looplike.moveOutOfLoop looplike.loopBody (opsToMoveOf looplike)).2 :=
  ⟨Iff.rfl, rfl⟩

/-- C8: a terminator — of an immediate loop-body block or of any block
nested in a body operation's regions — being a distinct operation from
every scanned non-terminator operation, is never selected for
hoisting. -/
theorem licm_terminator_not_hoisted (looplike : LoopLike) :
    (∀ blk, blk ∈ looplike.loopBody →
        blk.term.opid ∉ (bodyOps looplike.loopBody).map Op.opid →
        blk.term ∉ opsToMoveOf looplike)
    ∧ (∀ op blk, op ∈ bodyOps looplike.loopBody → blk ∈ nestedBlocks op →
        blk.term.opid ∉ (bodyOps looplike.loopBody).map Op.opid →
        blk.term ∉ opsToMoveOf looplike) :=
  ⟨fun _ _ hid => not_mem_opsToMoveOf_of_fresh_id looplike hid,
   fun _ _ _ _ hid => not_mem_opsToMoveOf_of_fresh_id looplike hid⟩

/-- Witness: the terminator of `exBlock` is not selected in `exLoop`. -/
theorem licm_terminator_not_hoisted_witness :
    exBlock.term ∉ opsToMoveOf exLoop :=
  (licm_terminator_not_hoisted exLoop).1 exBlock
    (List.mem_cons_self exBlock []) (by decide)

/-- C9: a recursively side-effecting operation is rejected whenever some
non-terminator operation in one of its region blocks has an operand the
availability predicate rejects — in the mover that predicate never
reports values defined by nested operations, which are never added to
the `willBeMovedSet`. -/
theorem licm_recursive_inner_dependency_reject (op : Op) (d : Value → Bool)
    (hrec : op.recursiveSideEffects = true)
    {region : Region} (hr : region ∈ op.regions)
    {blk : Block} (hb : blk ∈ region)
    {x : Op} (hx : x ∈ blk.ops)
    {v : Value} (hv : v ∈ x.operands) (hval : d v = false) :
    canBeHoisted op d = false := by
  have hxfalse : canBeHoisted x d = false := by
    cases x with
    | mk i operands mem nse rse regs =>
        simp only [Op.operands] at hv
        have hall : operands.all d = false := all_false_of_mem hv hval
        simp only [canBeHoisted, hall, Bool.not_false, if_true]
  have hops : canBeHoistedOps blk.ops d = false := by
    rw [canBeHoistedOps_eq_all]
    exact all_false_of_mem hx hxfalse
  have hblocks : canBeHoistedBlocks region d = false := by
    rw [canBeHoistedBlocks_eq_all]
    exact all_false_of_mem hb hops
  have hregs : canBeHoistedRegions op.regions d = false := by
    rw [canBeHoistedRegions_eq_all]
    exact all_false_of_mem hr hblocks
  cases op with
  | mk i operands mem nse rse regions =>
      simp only [Op.recursiveSideEffects] at hrec
      subst hrec
      simp only [Op.regions] at hregs
      simp only [canBeHoisted]
      split
      · rfl
      · split
        · rfl
        · simpa using hregs

/-- Witness: `opRec` is recursively side-effecting and `innerOp` consumes
a value no predicate reporting nothing as outside can accept. -/
theorem licm_recursive_inner_dependency_reject_witness :
    canBeHoisted opRec noneOutside = false :=
  licm_recursive_inner_dependency_reject opRec noneOutside rfl
    (List.mem_cons_self innerRegion [])
    (List.mem_cons_self innerBlock [])
    (List.mem_cons_self innerOp [])
    (List.mem_cons_self vInner []) rfl

/-- C10: the move primitive is invoked exactly once per loop, with the
scanned list (the empty list when nothing was selected), and the
procedure's result is that single invocation's result. -/
theorem licm_move_called_once (looplike : LoopLike) :
    moveLoopInvariantCode looplike =
      looplike.moveOutOfLoop looplike.loopBody (opsToMoveOf looplike)
    ∧ (opsToMoveOf looplike = [] →
        moveLoopInvariantCode looplike = looplike.moveOutOfLoop looplike.loopBody []) := by
  refine ⟨rfl, fun h => ?_⟩
  rw [moveLoopInvariantCode, h]

/-- Witness: in `exLoop2` nothing is selected and the primitive still
receives the (empty) list. -/
theorem licm_move_called_once_witness :
    moveLoopInvariantCode exLoop2 = exLoop2.moveOutOfLoop exLoop2.loopBody [] :=
  (licm_move_called_once exLoop2).2 rfl

/-! ### Order preservation -/

theorem pairwise_of_fst_not_mem {α : Type} {l : List α} {B A : α} (h : B ∉ l) :
    l.Pairwise (fun a b => ¬(a = B ∧ b = A)) := by
  induction l with
  | nil => exact List.Pairwise.nil
  | cons c rest ih =>
      rw [List.pairwise_cons]
      refine ⟨fun y _ hy => h ?_, ih (fun hm => h (List.mem_cons_of_mem _ hm))⟩
      rw [← hy.1]
      exact List.mem_cons_self c rest

/-- In a duplicate-free list where `A` occurs before `B`, no
earlier-later pair reads `(B, A)`. -/
theorem pairwise_ban_swap {α : Type} {F1 F2 F3 : List α} {A B : α}
    (hnd : (F1 ++ A :: (F2 ++ B :: F3)).Nodup) :
    A ≠ B ∧
      (F1 ++ A :: (F2 ++ B :: F3)).Pairwise (fun a b => ¬(a = B ∧ b = A)) := by
  rw [List.nodup_append] at hnd
  obtain ⟨-, hnd2, hdisj⟩ := hnd
  rw [List.nodup_cons] at hnd2
  obtain ⟨hA2, hnd3⟩ := hnd2
  rw [List.nodup_append] at hnd3
  obtain ⟨-, hndB, hdisj2⟩ := hnd3
  rw [List.nodup_cons] at hndB
  obtain ⟨hBF3, -⟩ := hndB
  have hAB : A ≠ B := fun h => hA2 (by simp [h])
  have hAF3 : A ∉ F3 := fun h => hA2 (by simp [h])
  have hBF2 : B ∉ F2 := fun h => hdisj2 h (by simp)
  have hBF1 : B ∉ F1 := fun h => hdisj h (by simp)
  refine ⟨hAB, List.pairwise_append.mpr ⟨pairwise_of_fst_not_mem hBF1, ?_, ?_⟩⟩
  · rw [List.pairwise_cons]
    refine ⟨fun y _ hy => hAB hy.1, ?_⟩
    refine List.pairwise_append.mpr ⟨pairwise_of_fst_not_mem hBF2, ?_, ?_⟩
    · rw [List.pairwise_cons]
      exact ⟨fun y hy h2 => hAF3 (h2.2 ▸ hy), pairwise_of_fst_not_mem hBF3⟩
    · intro x hx y _ h2
      exact hBF2 (h2.1 ▸ hx)
  · intro x hx y _ h2
    exact hBF1 (h2.1 ▸ hx)

theorem pair_sublist_of_get_lt {α : Type} :
    ∀ (l : List α) (i j : Nat) (hi : i < l.length) (hj : j < l.length), i < j →
      List.Sublist [l.get ⟨i, hi⟩, l.get ⟨j, hj⟩] l
  | [], i, _, hi, _, _ => absurd hi (Nat.not_lt_zero i)
  | _ :: _, 0, 0, _, _, hij => absurd hij (Nat.lt_irrefl 0)
  | a :: rest, 0, j + 1, _, hj, _ =>
      List.Sublist.cons₂ a
        (List.singleton_sublist.mpr (rest.get_mem j (Nat.lt_of_succ_lt_succ hj)))
  | _ :: _, i + 1, 0, _, _, hij => absurd hij (Nat.not_lt_zero (i + 1))
  | a :: rest, i + 1, j + 1, hi, hj, hij =>
      List.Sublist.cons a
        (pair_sublist_of_get_lt rest i j (Nat.lt_of_succ_lt_succ hi)
          (Nat.lt_of_succ_lt_succ hj) (Nat.lt_of_succ_lt_succ hij))

/-- C3: two operations of the same loop-body block, both selected, with
`A` before `B` in program order, appear as `A` before `B` in the ordered
list handed to the move primitive. -/
theorem licm_order_preservation (looplike : LoopLike) (A B : Op) (blk : Block)
    (hblk : blk ∈ looplike.loopBody) (pre mid post : List Op)
    (hops : blk.ops = pre ++ A :: (mid ++ B :: post))
    (hA : A ∈ opsToMoveOf looplike) (hB : B ∈ opsToMoveOf looplike)
    (hnodup : ((bodyOps looplike.loopBody).map Op.opid).Nodup) :
    List.Sublist [A, B] (opsToMoveOf looplike) := by
  obtain ⟨X, Y, hXY⟩ := bodyOps_decomp looplike.loopBody hblk
  have hfull : bodyOps looplike.loopBody
      = (X ++ pre) ++ A :: (mid ++ B :: (post ++ Y)) := by
    rw [hXY, hops]; simp
  have hndl : (bodyOps looplike.loopBody).Nodup := List.Nodup.of_map Op.opid hnodup
  rw [hfull] at hndl
  obtain ⟨hAB, hpw⟩ := pairwise_ban_swap hndl
  rw [← hfull] at hpw
  have hpw2 := List.Pairwise.sublist (opsToMoveOf_sublist looplike) hpw
  obtain ⟨⟨i, hi⟩, hgA⟩ := List.mem_iff_get.mp hA
  obtain ⟨⟨j, hj⟩, hgB⟩ := List.mem_iff_get.mp hB
  rcases Nat.lt_trichotomy i j with hij | hij | hij
  · have hp := pair_sublist_of_get_lt (opsToMoveOf looplike) i j hi hj hij
    rw [hgA, hgB] at hp
    exact hp
  · exfalso
    apply hAB
    subst hij
    rw [← hgA, ← hgB]
  · have hp := pair_sublist_of_get_lt (opsToMoveOf looplike) j i hj hi hij
    rw [hgB, hgA] at hp
    have hban := List.Pairwise.sublist hp hpw2
    rcases List.pairwise_cons.mp hban with ⟨hhead, -⟩
    exact absurd ⟨rfl, rfl⟩ (hhead A (by simp))

/-- Witness: `op1` and `op2`, both selected from `exBlock`, keep their
order in the collected list. -/
theorem licm_order_preservation_witness :
    List.Sublist [op1, op2] (opsToMoveOf exLoop) :=
  licm_order_preservation exLoop op1 op2 exBlock
    (List.mem_cons_self exBlock []) [] [] [op3] rfl
    (List.mem_cons_self op1 [op2])
    (List.mem_cons_of_mem op1 (List.mem_cons_self op2 []))
    (by decide)

/-! ### Congruence of the analyzer in its availability predicate -/

theorem all_congr_of_mem {α : Type} {l : List α} {f g : α → Bool}
    (h : ∀ x ∈ l, f x = g x) : l.all f = l.all g := by
  induction l with
  | nil => rfl
  | cons a rest ih =>
      simp only [List.all_cons]
      rw [h a (List.mem_cons_self a rest), ih (fun x hx => h x (List.mem_cons_of_mem _ hx))]

mutual

/-- The analyzer only consults the availability predicate on values in
`usedValues`: predicates agreeing there give the same verdict. -/
theorem canBeHoisted_congr (op : Op) (d1 d2 : Value → Bool)
    (h : ∀ v ∈ usedValues op, d1 v = d2 v) :
    canBeHoisted op d1 = canBeHoisted op d2 := by
  cases op with
  | mk i operands mem nse rse regions =>
      have h1 : operands.all d1 = operands.all d2 :=
        all_congr_of_mem (fun v hv =>
          h v (by simp only [usedValues]; exact List.mem_append_left _ hv))
      have h2 : canBeHoistedRegions regions d1 = canBeHoistedRegions regions d2 :=
        canBeHoistedRegions_congr regions d1 d2 (fun v hv =>
          h v (by simp only [usedValues]; exact List.mem_append_right _ hv))
      simp only [canBeHoisted, h1, h2]

/-- `canBeHoisted_congr` for the region loop. -/
theorem canBeHoistedRegions_congr (rs : List Region) (d1 d2 : Value → Bool)
    (h : ∀ v ∈ usedValuesRegions rs, d1 v = d2 v) :
    canBeHoistedRegions rs d1 = canBeHoistedRegions rs d2 := by
  cases rs with
  | nil => rfl
  | cons r rest =>
      have h1 := canBeHoistedBlocks_congr r d1 d2 (fun v hv =>
        h v (by simp only [usedValuesRegions]; exact List.mem_append_left _ hv))
      have h2 := canBeHoistedRegions_congr rest d1 d2 (fun v hv =>
        h v (by simp only [usedValuesRegions]; exact List.mem_append_right _ hv))
      simp only [canBeHoistedRegions, h1, h2]

/-- `canBeHoisted_congr` for the block loop. -/
theorem canBeHoistedBlocks_congr (bs : List Block) (d1 d2 : Value → Bool)
    (h : ∀ v ∈ usedValuesBlocks bs, d1 v = d2 v) :
    canBeHoistedBlocks bs d1 = canBeHoistedBlocks bs d2 := by
  cases bs with
  | nil => rfl
  | cons b rest =>
      cases b with
      | mk ops term =>
          have h1 := canBeHoistedOps_congr ops d1 d2 (fun v hv =>
            h v (by simp only [usedValuesBlocks]; exact List.mem_append_left _ hv))
          have h2 := canBeHoistedBlocks_congr rest d1 d2 (fun v hv =>
            h v (by simp only [usedValuesBlocks]; exact List.mem_append_right _ hv))
          simp only [canBeHoistedBlocks, h1, h2]

/-- `canBeHoisted_congr` for the (non-terminator) operation loop. -/
theorem canBeHoistedOps_congr (ops : List Op) (d1 d2 : Value → Bool)
    (h : ∀ v ∈ usedValuesOps ops, d1 v = d2 v) :
    canBeHoistedOps ops d1 = canBeHoistedOps ops d2 := by
  cases ops with
  | nil => rfl
  | cons o rest =>
      have h1 := canBeHoisted_congr o d1 d2 (fun v hv =>
        h v (by simp only [usedValuesOps]; exact List.mem_append_left _ hv))
      have h2 := canBeHoistedOps_congr rest d1 d2 (fun v hv =>
        h v (by simp only [usedValuesOps]; exact List.mem_append_right _ hv))
      simp only [canBeHoistedOps, h1, h2]

end

/-! ### Idempotence -/

theorem contains_iff_mem {l : List Nat} {a : Nat} : l.contains a = true ↔ a ∈ l :=
  List.elem_iff

theorem contains_congr_of_mem_iff {l1 l2 : List Nat} {a : Nat}
    (h : a ∈ l1 ↔ a ∈ l2) : l1.contains a = l2.contains a := by
  cases hc : l2.contains a with
  | true => exact contains_iff_mem.mpr (h.mpr (contains_iff_mem.mp hc))
  | false =>
      cases hc2 : l1.contains a with
      | false => rfl
      | true =>
          have := contains_iff_mem.mpr (h.mp (contains_iff_mem.mp hc2))
          rw [this] at hc
          cases hc

/-- The second-run predicate with an empty `willBeMovedSet`, on a value
with a defining operation: the interface answer after the move. -/
theorem secondRunPred_eval_some (looplike : LoopLike) (v : Value) (d : Nat)
    (hvd : v.definingOp = some d) :
    isDefinedOutsideOfBody (afterFirstRun looplike) [] v
      = (looplike.isDefinedOutsideOfLoop v
          || ((opsToMoveOf looplike).map Op.opid).contains d) := by
  simp only [isDefinedOutsideOfBody, afterFirstRun, hvd]
  exact Bool.false_or _

/-- The first-run predicate on a value with a defining operation. -/
theorem firstRunPred_eval_some (looplike : LoopLike) (w : List Nat) (v : Value) (d : Nat)
    (hvd : v.definingOp = some d) :
    isDefinedOutsideOfBody looplike w v
      = (w.contains d || looplike.isDefinedOutsideOfLoop v) := by
  simp only [isDefinedOutsideOfBody, hvd]

/-- The second-run predicate on a block-argument value. -/
theorem secondRunPred_eval_none (looplike : LoopLike) (v : Value)
    (hvd : v.definingOp = none) :
    isDefinedOutsideOfBody (afterFirstRun looplike) [] v
      = looplike.isDefinedOutsideOfLoop v := by
  simp only [isDefinedOutsideOfBody, afterFirstRun, hvd]
  cases looplike.isDefinedOutsideOfLoop v <;> rfl

/-- The first-run predicate on a block-argument value. -/
theorem firstRunPred_eval_none (looplike : LoopLike) (w : List Nat) (v : Value)
    (hvd : v.definingOp = none) :
    isDefinedOutsideOfBody looplike w v = looplike.isDefinedOutsideOfLoop v := by
  simp only [isDefinedOutsideOfBody, hvd]
  exact Bool.false_or _

/-- What the spec-modelled move leaves in the body: the original scan
sequence with the moved operations filtered out. -/
theorem bodyOps_moveOutOfLoopSpec (body : List Block) (opsToMove : List Op) :
    bodyOps (moveOutOfLoopSpec body opsToMove) =
      (bodyOps body).filter (fun o => !((opsToMove.map Op.opid).contains o.opid)) := by
  induction body with
  | nil => rfl
  | cons b rest ih =>
      obtain ⟨ops, term⟩ := b
      simp only [moveOutOfLoopSpec, List.map_cons, bodyOps, Block.mk, Block.ops,
        List.filter_append] at ih ⊢
      rw [ih]

/-- A scan starting from the empty accumulator over operations that all
fail the empty-set predicate selects nothing. -/
theorem scanOps_nil_of_all_reject (looplike : LoopLike) (l : List Op)
    (h : ∀ op ∈ l, canBeHoisted op (isDefinedOutsideOfBody looplike []) = false) :
    scanOps looplike [] l = [] := by
  induction l with
  | nil => rfl
  | cons o rest ih =>
      have h0 := h o (List.mem_cons_self o rest)
      simp only [scanOps, List.map_nil, h0, Bool.false_eq_true, if_false]
      exact ih (fun op hop => h op (List.mem_cons_of_mem _ hop))

theorem defBeforeUseList_suffix {l1 l2 : List Op}
    (h : defBeforeUseList (l1 ++ l2) = true) : defBeforeUseList l2 = true := by
  induction l1 with
  | nil => exact h
  | cons o rest ih =>
      simp only [List.cons_append, defBeforeUseList, Bool.and_eq_true] at h
      exact ih h.2

theorem defBeforeUseList_head {op : Op} {post : List Op}
    (h : defBeforeUseList (op :: post) = true) {v : Value} (hv : v ∈ usedValues op)
    {d : Nat} (hd : v.definingOp = some d) : d ∉ (op :: post).map Op.opid := by
  simp only [defBeforeUseList, Bool.and_eq_true] at h
  have h1 := List.all_eq_true.mp h.1 v hv
  simp only [hd] at h1
  intro hmem
  rw [contains_iff_mem.mpr hmem] at h1
  simp at h1

/-- C4: after a successful first run — the move primitive (spec-modelled)
removes the selected operations from the body and their results become
outside-defined — a second run selects nothing: under def-before-use in
scan order the single forward scan with the incrementally growing
`willBeMovedSet` already discovered the full transitive closure of
hoistable operations. -/
theorem licm_idempotence (looplike : LoopLike)
    (hdef : defBeforeUse looplike = true)
    (_hsucc : (looplike.moveOutOfLoop looplike.loopBody (opsToMoveOf looplike)).1 = true) :
    opsToMoveOf (afterFirstRun looplike) = [] := by
  rw [opsToMoveOf_eq]
  have hbody2 : bodyOps (afterFirstRun looplike).loopBody
      = (bodyOps looplike.loopBody).filter
          (fun o => !(((opsToMoveOf looplike).map Op.opid).contains o.opid)) :=
    bodyOps_moveOutOfLoopSpec looplike.loopBody (opsToMoveOf looplike)
  rw [hbody2]
  apply scanOps_nil_of_all_reject
  intro op hop
  have hmem1 : op ∈ bodyOps looplike.loopBody := List.mem_of_mem_filter hop
  have hfresh : ((opsToMoveOf looplike).map Op.opid).contains op.opid = false := by
    have hf := List.of_mem_filter hop
    simpa using hf
  obtain ⟨pre, post, hfull⟩ := List.append_of_mem hmem1
  have hS : opsToMoveOf looplike
      = scanOps looplike (scanOps looplike [] pre) (op :: post) := by
    rw [opsToMoveOf_eq, hfull, scanOps_append]
  set accPre := scanOps looplike [] pre with haccPre
  have hC : canBeHoisted op (isDefinedOutsideOfBody looplike (accPre.map Op.opid)) = false := by
    cases hCc : canBeHoisted op (isDefinedOutsideOfBody looplike (accPre.map Op.opid)) with
    | false => rfl
    | true =>
        exfalso
        have hS2 : opsToMoveOf looplike = scanOps looplike (accPre ++ [op]) post := by
          rw [hS]
          simp only [scanOps, hCc, if_true]
        obtain ⟨sel, hsel, -⟩ := scanOps_shape looplike post (accPre ++ [op])
        have hopmem : op ∈ opsToMoveOf looplike := by
          rw [hS2, hsel]
          simp
        have hcont : ((opsToMoveOf looplike).map Op.opid).contains op.opid = true :=
          contains_iff_mem.mpr (List.mem_map_of_mem Op.opid hopmem)
        rw [hcont] at hfresh
        cases hfresh
  obtain ⟨sel, hSsel, hselsub⟩ :
      ∃ sel, opsToMoveOf looplike = accPre ++ sel ∧ List.Sublist sel post := by
    obtain ⟨sel, hsel, hsub⟩ := scanOps_shape looplike post accPre
    refine ⟨sel, ?_, hsub⟩
    rw [hS]
    simp only [scanOps, hC, Bool.false_eq_true, if_false]
    exact hsel
  have hdefop : ∀ v ∈ usedValues op, ∀ d, v.definingOp = some d →
      d ∉ (op :: post).map Op.opid := by
    intro v hv d hd
    have h2 : defBeforeUseList (op :: post) = true := by
      have h3 : defBeforeUseList (bodyOps looplike.loopBody) = true := hdef
      rw [hfull] at h3
      exact defBeforeUseList_suffix h3
    exact defBeforeUseList_head h2 hv hd
  have hagree : ∀ v ∈ usedValues op,
      isDefinedOutsideOfBody (afterFirstRun looplike) [] v
        = isDefinedOutsideOfBody looplike (accPre.map Op.opid) v := by
    intro v hv
    cases hvd : v.definingOp with
    | none =>
        rw [secondRunPred_eval_none looplike v hvd, firstRunPred_eval_none looplike _ v hvd]
    | some d =>
        have hiff : d ∈ (opsToMoveOf looplike).map Op.opid ↔ d ∈ accPre.map Op.opid := by
          constructor
          · intro hdW
            rw [hSsel, List.map_append, List.mem_append] at hdW
            rcases hdW with hin | hin
            · exact hin
            · exfalso
              apply hdefop v hv d hvd
              have hpost : d ∈ post.map Op.opid := (hselsub.map Op.opid).subset hin
              exact List.mem_cons_of_mem op.opid hpost
          · intro hdacc
            rw [hSsel, List.map_append]
            exact List.mem_append_left _ hdacc
        have hW : ((opsToMoveOf looplike).map Op.opid).contains d
            = (accPre.map Op.opid).contains d := contains_congr_of_mem_iff hiff
        rw [secondRunPred_eval_some looplike v d hvd,
          firstRunPred_eval_some looplike _ v d hvd, hW]
        exact Bool.or_comm _ _
  calc canBeHoisted op (isDefinedOutsideOfBody (afterFirstRun looplike) [])
      = canBeHoisted op (isDefinedOutsideOfBody looplike (accPre.map Op.opid)) :=
        canBeHoisted_congr op _ _ hagree
    _ = false := hC

/-- Witness: rerunning the scan on `exLoop` after its successful first
run selects nothing. -/
theorem licm_idempotence_witness : opsToMoveOf (afterFirstRun exLoop) = [] :=
  licm_idempotence exLoop rfl rfl
